import Mathlib

/-!
Verification of the image-to-line-art conversion pipeline of the
coloring-book repository (src/lib/lineArt.ts, src/lib/lineArtAPI.ts and
the page component handler).

Pixel buffers (ImageData.data, a Uint8ClampedArray of RGBA bytes) are
embedded as flat lists of naturals in row-major order, 4 channels per
pixel; JavaScript number arithmetic is embedded as exact rational
arithmetic, and the Uint8ClampedArray store conversion as clamping to
0..255 followed by round-half-to-even, as the ECMAScript ToUint8Clamp
operation specifies. Gradient-magnitude maps (Float32Array) are embedded
as lists of rationals; the square root in the Sobel stage is the real
square root.
-/

/-- Value stored by an assignment into a Uint8ClampedArray: clamp the
rational to the range 0..255, then round, ties to even
(ECMAScript ToUint8Clamp). -/
def clampRound (q : ℚ) : ℕ :=
  if q ≤ 0 then 0
  else if 255 ≤ q then 255
  else
    let f := ⌊q⌋.toNat
    if q - ⌊q⌋ < 1/2 then f
    else if 1/2 < q - ⌊q⌋ then f + 1
    else if f % 2 = 0 then f else f + 1

/-- Channel c of pixel i of a flat RGBA buffer (out-of-range reads give 0,
matching a zero-initialized typed array of the intended size). -/
def chan (d : List ℕ) (i c : ℕ) : ℕ := d.getD (i * 4 + c) 0

/-- Pixel i of buffer d holds exactly the RGBA value (r, g, b, a). -/
def pixelIs (d : List ℕ) (i r g b a : ℕ) : Prop :=
  chan d i 0 = r ∧ chan d i 1 = g ∧ chan d i 2 = b ∧ chan d i 3 = a

/-- Running maximum of the magnitude map, from src/lib/lineArt.ts lines
127-130: maxMag starts at 0 and is replaced whenever a strictly larger
entry is scanned. -/
def maxMag (mag : List ℚ) : ℚ :=
  mag.foldl (fun m v => if v > m then v else m) 0

/-- The normalized threshold of thresholdEdges, line 132:
(threshold / 255) * maxMag. -/
def cutoff (mag : List ℚ) (t : ℕ) : ℚ := ((t : ℚ) / 255) * maxMag mag

/-- thresholdEdges, src/lib/lineArt.ts lines 117-144: a fresh
zero-initialized ImageData of w*h pixels; for each index i below the
magnitude length the four channels at i*4 are written, color 0 when
magnitude[i] > cutoff and 255 otherwise, alpha 255 (writes past the
buffer end are discarded, as on a typed array). -/
def thresholdEdges (mag : List ℚ) (w h t : ℕ) : List ℕ :=
  (List.range (w * h * 4)).map fun idx =>
    if idx / 4 < mag.length then
      if idx % 4 = 3 then 255
      else if mag.getD (idx / 4) 0 > cutoff mag t then 0 else 255
    else 0

/-- Number of pure-black fully opaque pixels among the first n pixels of a
buffer. -/
def countBlack (d : List ℕ) (n : ℕ) : ℕ :=
  (List.range n).countP fun i => chan d i 0 == 0 && chan d i 3 == 255

/-- getD of a mapped range list. -/
theorem getD_map_range (n : ℕ) (f : ℕ → ℕ) (i : ℕ) :
    ((List.range n).map f).getD i 0 = if i < n then f i else 0 := by
  simp only [List.getD_eq_getElem?_getD, List.getElem?_map]
  by_cases h : i < n
  · simp [List.getElem?_range, h]
  · have hn : (List.range n)[i]? = none :=
      List.getElem?_eq_none (by simpa using Nat.le_of_not_lt h)
    simp [hn, h]

/-- Every entry of the map is bounded by the running maximum. -/
theorem le_maxMag (mag : List ℚ) : ∀ v ∈ mag, v ≤ maxMag mag := by
  have key : ∀ (l : List ℚ) (a : ℚ),
      a ≤ l.foldl (fun m v => if v > m then v else m) a ∧
      ∀ v ∈ l, v ≤ l.foldl (fun m v => if v > m then v else m) a := by
    intro l
    induction l with
    | nil => intro a; exact ⟨le_refl a, by simp⟩
    | cons x xs ih =>
      intro a
      constructor
      · refine le_trans ?_ (ih (if x > a then x else a)).1
        by_cases hx : x > a <;> simp [hx] <;> linarith
      · intro v hv
        rcases List.mem_cons.mp hv with h | h
        · subst h
          refine le_trans ?_ (ih (if v > a then v else a)).1
          by_cases hx : v > a <;> simp [hx] <;> linarith
        · exact (ih (if x > a then x else a)).2 v h
  intro v hv
  exact (key mag 0).2 v hv

/-- The running maximum is an entry of the map or its initial value 0. -/
theorem maxMag_mem (mag : List ℚ) : maxMag mag = 0 ∨ maxMag mag ∈ mag := by
  have key : ∀ (l : List ℚ) (a : ℚ),
      l.foldl (fun m v => if v > m then v else m) a = a ∨
      l.foldl (fun m v => if v > m then v else m) a ∈ l := by
    intro l
    induction l with
    | nil => intro a; left; rfl
    | cons x xs ih =>
      intro a
      rcases ih (if x > a then x else a) with h | h
      · by_cases hx : x > a
        · right
          have hfold : (x :: xs).foldl (fun m v => if v > m then v else m) a = x := by
            simp only [List.foldl_cons, h]; simp [hx]
          rw [hfold]; exact List.mem_cons_self x xs
        · left
          simp only [List.foldl_cons, h]; simp [hx]
      · right; exact List.mem_cons_of_mem x h
  exact key mag 0

/-- The running maximum is nonnegative (it starts at 0 and only grows). -/
theorem maxMag_nonneg (mag : List ℚ) : 0 ≤ maxMag mag := by
  have key : ∀ (l : List ℚ) (a : ℚ),
      a ≤ l.foldl (fun m v => if v > m then v else m) a := by
    intro l
    induction l with
    | nil => intro a; exact le_refl a
    | cons x xs ih =>
      intro a
      refine le_trans ?_ (ih (if x > a then x else a))
      by_cases hx : x > a <;> simp [hx] <;> linarith
  exact key mag 0

/-- Length of the binarizer output buffer. -/
theorem thresholdEdges_length (mag : List ℚ) (w h t : ℕ) :
    (thresholdEdges mag w h t).length = w * h * 4 := by
  simp [thresholdEdges]

/-- Channel values of the binarizer output, pixel by pixel. -/
theorem thresholdEdges_chan (mag : List ℚ) (w h t i c : ℕ)
    (hi : i < w * h) (hc : c < 4) :
    chan (thresholdEdges mag w h t) i c =
      if i < mag.length then
        (if c = 3 then 255 else if cutoff mag t < mag.getD i 0 then 0 else 255)
      else 0 := by
  have hidx : i * 4 + c < w * h * 4 := by omega
  have hdiv : (i * 4 + c) / 4 = i := by omega
  have hmod : (i * 4 + c) % 4 = c := by omega
  simp only [chan, thresholdEdges, getD_map_range, hidx, if_pos, hdiv, hmod]

/-- A pixel of the binarizer output is pure opaque black exactly when its
magnitude entry exists and exceeds the cutoff. -/
theorem thresholdEdges_black_iff (mag : List ℚ) (w h t i : ℕ) (hi : i < w * h) :
    (chan (thresholdEdges mag w h t) i 0 = 0 ∧ chan (thresholdEdges mag w h t) i 3 = 255)
      ↔ (i < mag.length ∧ cutoff mag t < mag.getD i 0) := by
  rw [thresholdEdges_chan mag w h t i 0 hi (by omega),
      thresholdEdges_chan mag w h t i 3 hi (by omega)]
  by_cases hm : i < mag.length
  · by_cases hcut : cutoff mag t < mag.getD i 0 <;> simp [hm, hcut]
  · simp [hm]

/-- The cutoff is monotone in the threshold. -/
theorem cutoff_mono (mag : List ℚ) (t1 t2 : ℕ) (h : t1 ≤ t2) :
    cutoff mag t1 ≤ cutoff mag t2 := by
  unfold cutoff
  have hM : 0 ≤ maxMag mag := maxMag_nonneg mag
  have ht : (t1 : ℚ) ≤ (t2 : ℚ) := by exact_mod_cast h
  have : (t1 : ℚ) / 255 ≤ (t2 : ℚ) / 255 := by
    apply div_le_div_of_nonneg_right ht
    norm_num
  exact mul_le_mul_of_nonneg_right this hM

/-- At the top threshold the cutoff equals the running maximum, so the
strict comparison never classifies a pixel as edge: all pixels white. -/
theorem all_white_at_top (mag : List ℚ) (w h : ℕ) (hlen : mag.length = w * h) :
    ∀ i < w * h, pixelIs (thresholdEdges mag w h 255) i 255 255 255 255 := by
  intro i hi
  have hcut : cutoff mag 255 = maxMag mag := by
    unfold cutoff; norm_num
  have hml : i < mag.length := by omega
  have hle : mag.getD i 0 ≤ maxMag mag := by
    apply le_maxMag
    rw [List.getD_eq_getElem _ _ hml]
    exact List.getElem_mem hml
  have hnot : ¬ cutoff mag 255 < mag.getD i 0 := by rw [hcut]; exact not_lt.mpr hle
  have hchan : ∀ c, c < 4 → c ≠ 3 → chan (thresholdEdges mag w h 255) i c = 255 := by
    intro c hc hc3
    rw [thresholdEdges_chan mag w h 255 i c hi hc, if_pos hml, if_neg hc3, if_neg hnot]
  have halpha : chan (thresholdEdges mag w h 255) i 3 = 255 := by
    rw [thresholdEdges_chan mag w h 255 i 3 hi (by omega), if_pos hml, if_pos rfl]
  exact ⟨hchan 0 (by omega) (by omega), hchan 1 (by omega) (by omega),
    hchan 2 (by omega) (by omega), halpha⟩

/-- An in-range default read of the magnitude map is one of its entries. -/
theorem getD_mem_of_lt (mag : List ℚ) (i : ℕ) (h : i < mag.length) :
    mag.getD i 0 ∈ mag := by
  rw [List.getD_eq_getElem _ _ h]
  exact List.getElem_mem h

/-- C1. Binarizer contract: maxMag is an upper bound of the map and is one
of its entries or 0 (0 when the map is uniformly zero); the cutoff is
(threshold / 255) times maxMag; a pixel is written as opaque black exactly
when its magnitude exceeds the cutoff and as opaque white otherwise; and a
uniformly zero map yields an all-white output at every threshold. -/
theorem thresholdEdges_contract (mag : List ℚ) (w h t : ℕ)
    (hlen : mag.length = w * h) (ht : t ≤ 255) :
    (∀ v ∈ mag, v ≤ maxMag mag) ∧
    (maxMag mag = 0 ∨ maxMag mag ∈ mag) ∧
    ((∀ v ∈ mag, v = 0) → maxMag mag = 0) ∧
    cutoff mag t = ((t : ℚ) / 255) * maxMag mag ∧
    (∀ i < w * h,
      (cutoff mag t < mag.getD i 0 →
        pixelIs (thresholdEdges mag w h t) i 0 0 0 255) ∧
      (¬ cutoff mag t < mag.getD i 0 →
        pixelIs (thresholdEdges mag w h t) i 255 255 255 255)) ∧
    ((∀ v ∈ mag, v = 0) →
      ∀ i < w * h, pixelIs (thresholdEdges mag w h t) i 255 255 255 255) := by
  have hmax0 : (∀ v ∈ mag, v = 0) → maxMag mag = 0 := by
    intro hz
    rcases maxMag_mem mag with h0 | hmem
    · exact h0
    · exact hz _ hmem
  have hpix : ∀ i, i < w * h →
      (cutoff mag t < mag.getD i 0 →
        pixelIs (thresholdEdges mag w h t) i 0 0 0 255) ∧
      (¬ cutoff mag t < mag.getD i 0 →
        pixelIs (thresholdEdges mag w h t) i 255 255 255 255) := by
    intro i hi
    have hml : i < mag.length := by omega
    have halpha : chan (thresholdEdges mag w h t) i 3 = 255 := by
      rw [thresholdEdges_chan mag w h t i 3 hi (by omega), if_pos hml, if_pos rfl]
    constructor
    · intro hcut
      have hc : ∀ c, c < 4 → c ≠ 3 → chan (thresholdEdges mag w h t) i c = 0 := by
        intro c h4 h3
        rw [thresholdEdges_chan mag w h t i c hi h4, if_pos hml, if_neg h3, if_pos hcut]
      exact ⟨hc 0 (by omega) (by omega), hc 1 (by omega) (by omega),
        hc 2 (by omega) (by omega), halpha⟩
    · intro hcut
      have hc : ∀ c, c < 4 → c ≠ 3 → chan (thresholdEdges mag w h t) i c = 255 := by
        intro c h4 h3
        rw [thresholdEdges_chan mag w h t i c hi h4, if_pos hml, if_neg h3, if_neg hcut]
      exact ⟨hc 0 (by omega) (by omega), hc 1 (by omega) (by omega),
        hc 2 (by omega) (by omega), halpha⟩
  refine ⟨le_maxMag mag, maxMag_mem mag, hmax0, rfl, hpix, ?_⟩
  intro hz i hi
  have hml : i < mag.length := by omega
  have hv : mag.getD i 0 = 0 := hz _ (getD_mem_of_lt mag i hml)
  have hcut0 : cutoff mag t = 0 := by
    unfold cutoff; rw [hmax0 hz, mul_zero]
  exact (hpix i hi).2 (by rw [hv, hcut0]; exact lt_irrefl 0)

/-- Witness for C1 on a concrete map: pixel 1 of the map 0, 2 at threshold
100 is opaque black. -/
theorem thresholdEdges_contract_witness :
    pixelIs (thresholdEdges [(0 : ℚ), 2] 2 1 100) 1 0 0 0 255 :=
  ((thresholdEdges_contract [(0 : ℚ), 2] 2 1 100 rfl (by decide)).2.2.2.2.1
    1 (by decide)).1 (by norm_num [cutoff, maxMag, List.getD])

/-- C10. At threshold 255 the cutoff equals the global maximum magnitude
and the strict comparison classifies no pixel as edge, so the output is
entirely white. -/
theorem threshold255_all_white (mag : List ℚ) (w h : ℕ)
    (hlen : mag.length = w * h) :
    ∀ i < w * h, pixelIs (thresholdEdges mag w h 255) i 255 255 255 255 :=
  all_white_at_top mag w h hlen

/-- Witness for C10: threshold 255 on the map 0, 1 leaves even the
maximum-magnitude pixel white. -/
theorem threshold255_all_white_witness :
    pixelIs (thresholdEdges [(0 : ℚ), 1] 2 1 255) 1 255 255 255 255 :=
  threshold255_all_white [(0 : ℚ), 1] 2 1 rfl 1 (by decide)

/-- C2 counterexample: on the magnitude map 0, 1 (as a 2 by 1 image),
pixel 1 is the unique global-maximum-gradient location with positive
magnitude, yet at threshold 255 it is written white and the output holds
no black pixel at all, contrary to the claim that black pixels appear at
the global-maximum locations. -/
theorem threshold255_argmax_white :
    maxMag [(0 : ℚ), 1] = 1 ∧
    List.getD [(0 : ℚ), 1] 1 0 = maxMag [(0 : ℚ), 1] ∧
    (0 : ℚ) < maxMag [(0 : ℚ), 1] ∧
    pixelIs (thresholdEdges [(0 : ℚ), 1] 2 1 255) 1 255 255 255 255 ∧
    countBlack (thresholdEdges [(0 : ℚ), 1] 2 1 255) 2 = 0 := by
  have hmax : maxMag [(0 : ℚ), 1] = 1 := by norm_num [maxMag]
  refine ⟨hmax, by rw [hmax]; norm_num [List.getD], by rw [hmax]; norm_num, ?_, ?_⟩
  · exact all_white_at_top [(0 : ℚ), 1] 2 1 rfl 1 (by omega)
  · unfold countBlack
    rw [List.countP_eq_zero]
    intro i hi hp
    simp only [Bool.and_eq_true, beq_iff_eq] at hp
    have hiwh : i < 2 * 1 := by simpa using List.mem_range.mp hi
    have hblack :=
      (thresholdEdges_black_iff [(0 : ℚ), 1] 2 1 255 i hiwh).mp ⟨hp.1, hp.2⟩
    have hcut : cutoff [(0 : ℚ), 1] 255 = maxMag [(0 : ℚ), 1] := by
      unfold cutoff; norm_num
    have hle : List.getD [(0 : ℚ), 1] i 0 ≤ maxMag [(0 : ℚ), 1] :=
      le_maxMag _ _ (getD_mem_of_lt _ i hblack.1)
    rw [hcut] at hblack
    exact absurd hblack.2 (not_lt.mpr hle)

/-- C2 amended. Threshold 0 on a map with a positive entry produces at
least one black pixel; threshold 255 makes the cutoff equal the global
maximum, and since classification is strict, no pixel qualifies: the
output is entirely white. -/
theorem threshold_extremes (mag : List ℚ) (w h : ℕ)
    (hlen : mag.length = w * h) :
    ((∃ v ∈ mag, 0 < v) →
      ∃ i, i < w * h ∧ pixelIs (thresholdEdges mag w h 0) i 0 0 0 255) ∧
    (∀ i < w * h, pixelIs (thresholdEdges mag w h 255) i 255 255 255 255) := by
  constructor
  · rintro ⟨v, hv, hvpos⟩
    rcases List.getElem_of_mem hv with ⟨n, hn, hveq⟩
    refine ⟨n, by omega, ?_⟩
    have hcut0 : cutoff mag 0 = 0 := by
      unfold cutoff; norm_num
    have hgt : cutoff mag 0 < mag.getD n 0 := by
      rw [hcut0, List.getD_eq_getElem _ _ hn, hveq]; exact hvpos
    have hi : n < w * h := by omega
    have halpha : chan (thresholdEdges mag w h 0) n 3 = 255 := by
      rw [thresholdEdges_chan mag w h 0 n 3 hi (by omega), if_pos hn, if_pos rfl]
    have hc : ∀ c, c < 4 → c ≠ 3 → chan (thresholdEdges mag w h 0) n c = 0 := by
      intro c h4 h3
      rw [thresholdEdges_chan mag w h 0 n c hi h4, if_pos hn, if_neg h3, if_pos hgt]
    exact ⟨hc 0 (by omega) (by omega), hc 1 (by omega) (by omega),
      hc 2 (by omega) (by omega), halpha⟩
  · exact all_white_at_top mag w h hlen

/-- Witness for the amended C2 on the map 0, 1: threshold 0 yields a black
pixel and threshold 255 leaves the maximum location white. -/
theorem threshold_extremes_witness :
    (∃ i, i < 2 * 1 ∧ pixelIs (thresholdEdges [(0 : ℚ), 1] 2 1 0) i 0 0 0 255) ∧
    pixelIs (thresholdEdges [(0 : ℚ), 1] 2 1 255) 1 255 255 255 255 :=
  ⟨(threshold_extremes [(0 : ℚ), 1] 2 1 rfl).1 ⟨1, by simp, by norm_num⟩,
    (threshold_extremes [(0 : ℚ), 1] 2 1 rfl).2 1 (by decide)⟩

/-- C3. Threshold monotonicity: with the magnitude map fixed, raising the
threshold never increases the count of opaque black pixels in the
binarized output. -/
theorem countBlack_antitone (mag : List ℚ) (w h t1 t2 : ℕ)
    (hlen : mag.length = w * h) (h12 : t1 ≤ t2) (h255 : t2 ≤ 255) :
    countBlack (thresholdEdges mag w h t2) (w * h) ≤
      countBlack (thresholdEdges mag w h t1) (w * h) := by
  unfold countBlack
  apply List.countP_mono_left
  intro i hi hp
  have hiwh : i < w * h := List.mem_range.mp hi
  simp only [Bool.and_eq_true, beq_iff_eq] at hp ⊢
  have hblack := (thresholdEdges_black_iff mag w h t2 i hiwh).mp ⟨hp.1, hp.2⟩
  have hcut : cutoff mag t1 < mag.getD i 0 :=
    lt_of_le_of_lt (cutoff_mono mag t1 t2 h12) hblack.2
  exact (thresholdEdges_black_iff mag w h t1 i hiwh).mpr ⟨hblack.1, hcut⟩

/-- Witness for C3 on the map 0, 1: the black count at threshold 200 is at
most the black count at threshold 10. -/
theorem countBlack_antitone_witness :
    countBlack (thresholdEdges [(0 : ℚ), 1] 2 1 200) (2 * 1) ≤
      countBlack (thresholdEdges [(0 : ℚ), 1] 2 1 10) (2 * 1) :=
  countBlack_antitone [(0 : ℚ), 1] 2 1 10 200 rfl (by decide) (by decide)

/-- Dimension scaling of convertToLineArt, src/lib/lineArt.ts lines
186-193: if either native dimension exceeds maxDim, both are multiplied by
scale = maxDim / max(width, height) and floored; otherwise they pass
through unchanged. -/
def resizeDims (w h m : ℕ) : ℕ × ℕ :=
  if m < w ∨ m < h then
    (⌊(w : ℚ) * ((m : ℚ) / ((max w h : ℕ) : ℚ))⌋₊,
     ⌊(h : ℚ) * ((m : ℚ) / ((max w h : ℕ) : ℚ))⌋₊)
  else (w, h)

/-- In the scaling branch the floored rational products are exactly the
natural-number divisions dimension * maxDim / max(width, height). -/
theorem resizeDims_eq_div (w h m : ℕ) (hcond : m < w ∨ m < h) :
    resizeDims w h m = (w * m / max w h, h * m / max w h) := by
  have key : ∀ a : ℕ,
      ⌊(a : ℚ) * ((m : ℚ) / ((max w h : ℕ) : ℚ))⌋₊ = a * m / max w h := by
    intro a
    have h1 : (a : ℚ) * ((m : ℚ) / ((max w h : ℕ) : ℚ)) =
        ((a * m : ℕ) : ℚ) / ((max w h : ℕ) : ℚ) := by
      push_cast; ring
    rw [h1, Nat.floor_div_nat, Nat.floor_natCast]
  unfold resizeDims
  rw [if_pos hcond, key w, key h]

/-- C4. Resizer contract: when either dimension exceeds maxDim both output
dimensions are the floor of dimension * maxDim / max(width, height),
otherwise dimensions pass through; the larger output dimension never
exceeds maxDim, the image is never upscaled, and 3000 by 2000 at
maxDim 1200 yields exactly 1200 by 800. -/
theorem resizeDims_contract (w h m : ℕ) (hw : 0 < w) (hh : 0 < h) (hm : 0 < m) :
    (m < w ∨ m < h → resizeDims w h m = (w * m / max w h, h * m / max w h)) ∧
    (w ≤ m → h ≤ m → resizeDims w h m = (w, h)) ∧
    max (resizeDims w h m).1 (resizeDims w h m).2 ≤ m ∧
    (resizeDims w h m).1 ≤ w ∧ (resizeDims w h m).2 ≤ h ∧
    resizeDims 3000 2000 1200 = (1200, 800) := by
  have hconc : resizeDims 3000 2000 1200 = (1200, 800) := by
    rw [resizeDims_eq_div 3000 2000 1200 (by norm_num)]
    decide
  have hpass : w ≤ m → h ≤ m → resizeDims w h m = (w, h) := by
    intro h1 h2
    unfold resizeDims
    rw [if_neg]
    omega
  by_cases hcond : m < w ∨ m < h
  · have heq := resizeDims_eq_div w h m hcond
    have hmx : 0 < max w h := by
      rcases hcond with hc | hc
      · exact lt_of_lt_of_le (lt_of_le_of_lt (Nat.zero_le m) hc) (le_max_left w h)
      · exact lt_of_lt_of_le (lt_of_le_of_lt (Nat.zero_le m) hc) (le_max_right w h)
    have hbound : ∀ a : ℕ, a ≤ max w h → a * m / max w h ≤ m := by
      intro a ha
      calc a * m / max w h ≤ max w h * m / max w h :=
            Nat.div_le_div_right (Nat.mul_le_mul_right m ha)
        _ = m := Nat.mul_div_cancel_left m hmx
    have hshrink : ∀ a : ℕ, m ≤ max w h → a * m / max w h ≤ a := by
      intro a hma
      calc a * m / max w h ≤ a * max w h / max w h :=
            Nat.div_le_div_right (Nat.mul_le_mul_left a hma)
        _ = a := Nat.mul_div_cancel _ hmx
    have hma : m ≤ max w h := by
      rcases hcond with hc | hc
      · exact le_trans (le_of_lt hc) (le_max_left w h)
      · exact le_trans (le_of_lt hc) (le_max_right w h)
    refine ⟨fun _ => heq, hpass, ?_, ?_, ?_, hconc⟩
    · rw [heq]
      exact max_le (hbound w (le_max_left w h)) (hbound h (le_max_right w h))
    · rw [heq]; exact hshrink w hma
    · rw [heq]; exact hshrink h hma
  · push_neg at hcond
    have heq : resizeDims w h m = (w, h) := hpass hcond.1 hcond.2
    refine ⟨fun hc => absurd hc (by omega), hpass, ?_, ?_, ?_, hconc⟩
    · rw [heq]; exact max_le hcond.1 hcond.2
    · rw [heq]
    · rw [heq]

/-- Witness for C4 at the concrete input of the end-to-end scenario. -/
theorem resizeDims_contract_witness :
    resizeDims 3000 2000 1200 = (1200, 800) :=
  (resizeDims_contract 3000 2000 1200 (by decide) (by decide) (by decide)).2.2.2.2.2

/-- Decomposition of the flat RGBA index of channel c of pixel (x, y). -/
theorem pix_decomp (w x y c : ℕ) (hx : x < w) (hc : c < 4) :
    (y * w + x) / w = y ∧ (y * w + x) % w = x ∧
    ((y * w + x) * 4 + c) % 4 = c ∧ ((y * w + x) * 4 + c) / 4 = y * w + x := by
  have h4 : ((y * w + x) * 4 + c) / 4 = y * w + x := by omega
  have hm4 : ((y * w + x) * 4 + c) % 4 = c := by omega
  have hw0 : 0 < w := by omega
  have hmw : (y * w + x) % w = x := by
    rw [Nat.mul_comm y w, Nat.mul_add_mod]; exact Nat.mod_eq_of_lt hx
  have hdw : (y * w + x) / w = y := by
    rw [Nat.mul_comm y w, Nat.mul_add_div hw0, Nat.div_eq_of_lt hx, Nat.add_zero]
  exact ⟨hdw, hmw, hm4, h4⟩

/-- A pixel coordinate pair yields an in-range pixel index. -/
theorem pix_lt (w h x y : ℕ) (hx : x < w) (hy : y < h) : y * w + x < w * h := by
  calc y * w + x < y * w + w := by omega
    _ = (y + 1) * w := by ring
    _ ≤ h * w := Nat.mul_le_mul_right w hy
    _ = w * h := Nat.mul_comm h w

/-- The 9-sample sum of the 3 by 3 neighborhood of (x, y) on channel c,
read from the snapshot, as in boxBlur (src/lib/lineArt.ts lines 68-73):
the flat loop index k runs over dy = k / 3 - 1 and dx = k % 3 - 1. -/
def neighborSum (src : List ℕ) (w x y c : ℕ) : ℕ :=
  ((List.range 9).map fun k =>
    src.getD (((y + k / 3 - 1) * w + (x + k % 3 - 1)) * 4 + c) 0).sum

/-- boxBlur, src/lib/lineArt.ts lines 61-79: one pass writes, for each
interior pixel and each color channel, the 9-sample sum divided by 9 into
the Uint8ClampedArray; all reads come from a snapshot of the buffer taken
before the pass; every other index keeps its value. -/
def boxBlur (d : List ℕ) (w h : ℕ) : List ℕ :=
  (List.range d.length).map fun idx =>
    if 1 ≤ idx / 4 % w ∧ idx / 4 % w + 1 < w ∧
        1 ≤ idx / 4 / w ∧ idx / 4 / w + 1 < h ∧ idx % 4 < 3 then
      clampRound ((neighborSum d w (idx / 4 % w) (idx / 4 / w) (idx % 4) : ℚ) / 9)
    else d.getD idx 0

/-- The blur loop of convertToLineArt, src/lib/lineArt.ts lines 211-213:
boxBlur applied blurPasses times sequentially. -/
def blurIter (d : List ℕ) (w h : ℕ) : ℕ → List ℕ
  | 0 => d
  | n + 1 => boxBlur (blurIter d w h n) w h

theorem boxBlur_length (d : List ℕ) (w h : ℕ) : (boxBlur d w h).length = d.length := by
  simp [boxBlur]

/-- Channel values of one blur pass, pixel by pixel. -/
theorem boxBlur_chan (d : List ℕ) (w h x y c : ℕ) (hx : x < w) (hc : c < 4)
    (hidx : (y * w + x) * 4 + c < d.length) :
    chan (boxBlur d w h) (y * w + x) c =
      if 1 ≤ x ∧ x + 1 < w ∧ 1 ≤ y ∧ y + 1 < h ∧ c < 3 then
        clampRound ((neighborSum d w x y c : ℚ) / 9)
      else chan d (y * w + x) c := by
  obtain ⟨hdw, hmw, hm4, h4⟩ := pix_decomp w x y c hx hc
  simp only [chan, boxBlur, getD_map_range, hidx, if_pos, h4, hm4, hmw, hdw]

/-- The red values of the 3 by 3 neighborhood of (x, y), read from the
snapshot, in the scan order of the dilate loop. -/
def neighborhood (src : List ℕ) (w x y : ℕ) : List ℕ :=
  (List.range 9).map fun k =>
    src.getD (((y + k / 3 - 1) * w + (x + k % 3 - 1)) * 4) 0

/-- The running minimum of the dilate pass: minVal starts at 255 and is
replaced whenever a strictly smaller neighborhood red value is scanned
(src/lib/lineArt.ts lines 155-163); this equals a fold of min over the
neighborhood. -/
def minNeighbor (src : List ℕ) (w x y : ℕ) : ℕ :=
  (neighborhood src w x y).foldl min 255

/-- dilate, src/lib/lineArt.ts lines 149-174: one pass writes the
neighborhood minimum red value into the three color channels of each
interior pixel, reading from a pre-pass snapshot; the alpha channel and
the border keep their values. -/
def dilate (d : List ℕ) (w h : ℕ) : List ℕ :=
  (List.range d.length).map fun idx =>
    if 1 ≤ idx / 4 % w ∧ idx / 4 % w + 1 < w ∧
        1 ≤ idx / 4 / w ∧ idx / 4 / w + 1 < h ∧ idx % 4 < 3 then
      minNeighbor d w (idx / 4 % w) (idx / 4 / w)
    else d.getD idx 0

/-- The dilation loop of convertToLineArt, src/lib/lineArt.ts lines
222-224: dilate applied thickness times sequentially. -/
def dilateIter (d : List ℕ) (w h : ℕ) : ℕ → List ℕ
  | 0 => d
  | n + 1 => dilate (dilateIter d w h n) w h

theorem dilate_length (d : List ℕ) (w h : ℕ) : (dilate d w h).length = d.length := by
  simp [dilate]

/-- Channel values of one dilation pass, pixel by pixel. -/
theorem dilate_chan (d : List ℕ) (w h x y c : ℕ) (hx : x < w) (hc : c < 4)
    (hidx : (y * w + x) * 4 + c < d.length) :
    chan (dilate d w h) (y * w + x) c =
      if 1 ≤ x ∧ x + 1 < w ∧ 1 ≤ y ∧ y + 1 < h ∧ c < 3 then
        minNeighbor d w x y
      else chan d (y * w + x) c := by
  obtain ⟨hdw, hmw, hm4, h4⟩ := pix_decomp w x y c hx hc
  simp only [chan, dilate, getD_map_range, hidx, if_pos, h4, hm4, hmw, hdw]

/-- A fold of min never exceeds its initial accumulator. -/
theorem foldl_min_le_init (l : List ℕ) (a : ℕ) : l.foldl min a ≤ a := by
  induction l generalizing a with
  | nil => exact le_refl a
  | cons x xs ih => exact le_trans (ih (min a x)) (min_le_left a x)

/-- A fold of min is bounded by every list element. -/
theorem foldl_min_le_mem (l : List ℕ) (a b : ℕ) (hb : b ∈ l) : l.foldl min a ≤ b := by
  induction l generalizing a with
  | nil => cases hb
  | cons x xs ih =>
    rcases List.mem_cons.mp hb with h | h
    · subst h
      exact le_trans (foldl_min_le_init xs (min a b)) (min_le_right a b)
    · exact ih (min a x) h

/-- A fold of min returns its initial accumulator or a list element. -/
theorem foldl_min_mem (l : List ℕ) (a : ℕ) :
    l.foldl min a = a ∨ l.foldl min a ∈ l := by
  induction l generalizing a with
  | nil => left; rfl
  | cons x xs ih =>
    rcases ih (min a x) with h | h
    · rcases Nat.le_total a x with hax | hxa
      · left; rw [List.foldl_cons, h, min_eq_left hax]
      · right; rw [List.foldl_cons, h, min_eq_right hxa]
        exact List.mem_cons_self x xs
    · right; exact List.mem_cons_of_mem x h

/-- Folding min over values that are all 0 or 255, from an accumulator
that is 0 or 255, yields 0 or 255. -/
theorem foldl_min_bw (l : List ℕ) (a : ℕ) (ha : a = 0 ∨ a = 255)
    (hl : ∀ v ∈ l, v = 0 ∨ v = 255) :
    l.foldl min a = 0 ∨ l.foldl min a = 255 := by
  rcases foldl_min_mem l a with h | h
  · rw [h]; exact ha
  · exact hl _ h

/-- A default read from a byte buffer is bounded by 255. -/
theorem getD_le_255 (d : List ℕ) (i : ℕ) (hbytes : ∀ v ∈ d, v ≤ 255) :
    d.getD i 0 ≤ 255 := by
  by_cases hlen : i < d.length
  · rw [List.getD_eq_getElem _ _ hlen]
    exact hbytes _ (List.getElem_mem hlen)
  · rw [List.getD_eq_default]
    · exact Nat.zero_le 255
    · omega

/-- C6. Box-blur contract: one pass writes, for each interior pixel and
each color channel, the clamped rounded mean of the nine snapshot samples
of its 3 by 3 neighborhood; border pixels and the alpha channel keep their
values; the pass is iterated blurPasses times sequentially and zero passes
leave the buffer unchanged. -/
theorem boxBlur_contract (d : List ℕ) (w h n : ℕ) (hd : d.length = w * h * 4) :
    (∀ x y c, 1 ≤ x → x + 1 < w → 1 ≤ y → y + 1 < h → c < 3 →
      chan (boxBlur d w h) (y * w + x) c =
        clampRound ((neighborSum d w x y c : ℚ) / 9)) ∧
    (∀ x y c, x < w → y < h → c < 4 →
      (x = 0 ∨ x + 1 = w ∨ y = 0 ∨ y + 1 = h ∨ c = 3) →
      chan (boxBlur d w h) (y * w + x) c = chan d (y * w + x) c) ∧
    blurIter d w h 0 = d ∧
    blurIter d w h (n + 1) = boxBlur (blurIter d w h n) w h := by
  refine ⟨?_, ?_, rfl, rfl⟩
  · intro x y c hx1 hx2 hy1 hy2 hc
    have hxw : x < w := by omega
    have hyh : y < h := by omega
    have hp := pix_lt w h x y hxw hyh
    have hidx : (y * w + x) * 4 + c < d.length := by omega
    rw [boxBlur_chan d w h x y c hxw (by omega) hidx,
      if_pos ⟨hx1, hx2, hy1, hy2, hc⟩]
  · intro x y c hxw hyh hc hb
    have hp := pix_lt w h x y hxw hyh
    have hidx : (y * w + x) * 4 + c < d.length := by omega
    rw [boxBlur_chan d w h x y c hxw hc hidx, if_neg (by omega)]

/-- Witness for C6 on a concrete 3 by 3 buffer: the center red channel of
one blur pass is the clamped rounded mean of its nine snapshot samples. -/
theorem boxBlur_contract_witness :
    chan (boxBlur (List.replicate 36 9) 3 3) (1 * 3 + 1) 0 =
      clampRound ((neighborSum (List.replicate 36 9) 3 1 1 0 : ℚ) / 9) :=
  (boxBlur_contract (List.replicate 36 9) 3 3 0 (by decide)).1 1 1 0
    (by decide) (by decide) (by decide) (by decide) (by decide)

/-- The neighborhood minimum is a lower bound of the neighborhood reds
and, on a byte buffer, one of them. -/
theorem minNeighbor_spec (d : List ℕ) (w x y : ℕ) (hbytes : ∀ v ∈ d, v ≤ 255) :
    (∀ v ∈ neighborhood d w x y, minNeighbor d w x y ≤ v) ∧
    minNeighbor d w x y ∈ neighborhood d w x y := by
  constructor
  · intro v hv; exact foldl_min_le_mem _ 255 v hv
  · rcases foldl_min_mem (neighborhood d w x y) 255 with h | h
    · obtain ⟨v0, hv0⟩ :=
        List.exists_mem_of_ne_nil (neighborhood d w x y) (by simp [neighborhood])
      have h1 : (neighborhood d w x y).foldl min 255 ≤ v0 :=
        foldl_min_le_mem _ 255 v0 hv0
      have h2 : v0 ≤ 255 := by
        obtain ⟨k, hk, hfk⟩ := List.mem_map.mp hv0
        rw [← hfk]
        exact getD_le_255 d _ hbytes
      have heq : minNeighbor d w x y = v0 := by
        unfold minNeighbor
        omega
      rw [heq]; exact hv0
    · exact h

/-- C7. Dilator contract: one pass writes the neighborhood minimum red
value (a lower bound of the nine snapshot reds and, on a byte buffer, one
of them) into the three color channels of each interior pixel; a black
neighbor therefore forces the pixel black; border pixels and the alpha
channel keep their values; the pass is iterated thickness times
sequentially and zero passes leave the buffer unchanged. -/
theorem dilate_contract (d : List ℕ) (w h n : ℕ) (hd : d.length = w * h * 4)
    (hbytes : ∀ v ∈ d, v ≤ 255) :
    (∀ x y c, 1 ≤ x → x + 1 < w → 1 ≤ y → y + 1 < h → c < 3 →
      chan (dilate d w h) (y * w + x) c = minNeighbor d w x y) ∧
    (∀ x y, (∀ v ∈ neighborhood d w x y, minNeighbor d w x y ≤ v) ∧
      minNeighbor d w x y ∈ neighborhood d w x y) ∧
    (∀ x y c, 1 ≤ x → x + 1 < w → 1 ≤ y → y + 1 < h → c < 3 →
      (∃ v ∈ neighborhood d w x y, v = 0) →
      chan (dilate d w h) (y * w + x) c = 0) ∧
    (∀ x y c, x < w → y < h → c < 4 →
      (x = 0 ∨ x + 1 = w ∨ y = 0 ∨ y + 1 = h ∨ c = 3) →
      chan (dilate d w h) (y * w + x) c = chan d (y * w + x) c) ∧
    dilateIter d w h 0 = d ∧
    dilateIter d w h (n + 1) = dilate (dilateIter d w h n) w h := by
  have hint : ∀ x y c, 1 ≤ x → x + 1 < w → 1 ≤ y → y + 1 < h → c < 3 →
      chan (dilate d w h) (y * w + x) c = minNeighbor d w x y := by
    intro x y c hx1 hx2 hy1 hy2 hc
    have hxw : x < w := by omega
    have hyh : y < h := by omega
    have hp := pix_lt w h x y hxw hyh
    have hidx : (y * w + x) * 4 + c < d.length := by omega
    rw [dilate_chan d w h x y c hxw (by omega) hidx,
      if_pos ⟨hx1, hx2, hy1, hy2, hc⟩]
  refine ⟨hint, fun x y => minNeighbor_spec d w x y hbytes, ?_, ?_, rfl, rfl⟩
  · intro x y c hx1 hx2 hy1 hy2 hc hzero
    rw [hint x y c hx1 hx2 hy1 hy2 hc]
    obtain ⟨v, hv, hv0⟩ := hzero
    have hle : minNeighbor d w x y ≤ v := foldl_min_le_mem _ 255 v hv
    omega
  · intro x y c hxw hyh hc hb
    have hp := pix_lt w h x y hxw hyh
    have hidx : (y * w + x) * 4 + c < d.length := by omega
    rw [dilate_chan d w h x y c hxw hc hidx, if_neg (by omega)]

/-- Witness for C7 on a concrete 3 by 3 buffer: the center green channel
of one dilation pass equals the neighborhood minimum red value. -/
theorem dilate_contract_witness :
    chan (dilate (List.replicate 36 7) 3 3) (1 * 3 + 1) 1 =
      minNeighbor (List.replicate 36 7) 3 1 1 :=
  (dilate_contract (List.replicate 36 7) 3 3 0 (by decide)
    (by intro v hv; simpa using (List.eq_of_mem_replicate hv).le.trans (by norm_num))).1
    1 1 1 (by decide) (by decide) (by decide) (by decide) (by decide)

/-- Coordinates of an in-range pixel index. -/
theorem coords_of_lt (w h i : ℕ) (hi : i < w * h) :
    i % w < w ∧ i / w < h ∧ (i / w) * w + i % w = i := by
  have hw0 : 0 < w := by
    rcases Nat.eq_zero_or_pos w with h0 | h0
    · subst h0; simp at hi
    · exact h0
  refine ⟨Nat.mod_lt i hw0, ?_, ?_⟩
  · rw [Nat.div_lt_iff_lt_mul hw0, Nat.mul_comm h w]
    exact hi
  · rw [Nat.mul_comm]
    exact Nat.div_add_mod i w

/-- Every pixel of a buffer is pure opaque black or pure opaque white. -/
def pureBW (d : List ℕ) (w h : ℕ) : Prop :=
  ∀ i < w * h, pixelIs d i 0 0 0 255 ∨ pixelIs d i 255 255 255 255

/-- The binarizer output is pure black/white at every threshold. -/
theorem thresholdEdges_pureBW (mag : List ℚ) (w h t : ℕ)
    (hlen : mag.length = w * h) : pureBW (thresholdEdges mag w h t) w h := by
  intro i hi
  have hml : i < mag.length := by omega
  have halpha : chan (thresholdEdges mag w h t) i 3 = 255 := by
    rw [thresholdEdges_chan mag w h t i 3 hi (by omega), if_pos hml, if_pos rfl]
  by_cases hcut : cutoff mag t < mag.getD i 0
  · left
    have hc : ∀ c, c < 4 → c ≠ 3 → chan (thresholdEdges mag w h t) i c = 0 := by
      intro c h4 h3
      rw [thresholdEdges_chan mag w h t i c hi h4, if_pos hml, if_neg h3, if_pos hcut]
    exact ⟨hc 0 (by omega) (by omega), hc 1 (by omega) (by omega),
      hc 2 (by omega) (by omega), halpha⟩
  · right
    have hc : ∀ c, c < 4 → c ≠ 3 → chan (thresholdEdges mag w h t) i c = 255 := by
      intro c h4 h3
      rw [thresholdEdges_chan mag w h t i c hi h4, if_pos hml, if_neg h3, if_neg hcut]
    exact ⟨hc 0 (by omega) (by omega), hc 1 (by omega) (by omega),
      hc 2 (by omega) (by omega), halpha⟩

/-- One dilation pass preserves the pure black/white invariant. -/
theorem dilate_pureBW (d : List ℕ) (w h : ℕ) (hd : d.length = w * h * 4)
    (hbw : pureBW d w h) : pureBW (dilate d w h) w h := by
  intro i hi
  obtain ⟨hxw, hyh, hi_eq⟩ := coords_of_lt w h i hi
  rw [← hi_eq] at hi ⊢
  set x := i % w with hxdef
  set y := i / w with hydef
  have hp := pix_lt w h x y hxw hyh
  have hidx : ∀ c, c < 4 → (y * w + x) * 4 + c < d.length := by
    intro c hc; omega
  have halpha255 : chan d (y * w + x) 3 = 255 := by
    rcases hbw (y * w + x) hp with hb | hb
    · exact hb.2.2.2
    · exact hb.2.2.2
  by_cases hin : 1 ≤ x ∧ x + 1 < w ∧ 1 ≤ y ∧ y + 1 < h
  · have hminbw : minNeighbor d w x y = 0 ∨ minNeighbor d w x y = 255 := by
      apply foldl_min_bw
      · right; rfl
      · intro v hv
        obtain ⟨k, hk, hfk⟩ := List.mem_map.mp hv
        have hk9 : k < 9 := List.mem_range.mp hk
        have hx2 : x + k % 3 - 1 < w := by omega
        have hy2 : y + k / 3 - 1 < h := by omega
        have hp2 : (y + k / 3 - 1) * w + (x + k % 3 - 1) < w * h :=
          pix_lt w h _ _ hx2 hy2
        rcases hbw ((y + k / 3 - 1) * w + (x + k % 3 - 1)) hp2 with hb | hb
        · left; rw [← hfk]; exact hb.1
        · right; rw [← hfk]; exact hb.1
    have hchan : ∀ c, c < 3 → chan (dilate d w h) (y * w + x) c = minNeighbor d w x y := by
      intro c hc
      rw [dilate_chan d w h x y c hxw (by omega) (hidx c (by omega)),
        if_pos ⟨hin.1, hin.2.1, hin.2.2.1, hin.2.2.2, hc⟩]
    have halpha : chan (dilate d w h) (y * w + x) 3 = chan d (y * w + x) 3 := by
      rw [dilate_chan d w h x y 3 hxw (by omega) (hidx 3 (by omega)), if_neg (by omega)]
    rcases hminbw with hm | hm
    · left
      exact ⟨by rw [hchan 0 (by omega), hm], by rw [hchan 1 (by omega), hm],
        by rw [hchan 2 (by omega), hm], by rw [halpha, halpha255]⟩
    · right
      exact ⟨by rw [hchan 0 (by omega), hm], by rw [hchan 1 (by omega), hm],
        by rw [hchan 2 (by omega), hm], by rw [halpha, halpha255]⟩
  · have hchan : ∀ c, c < 4 → chan (dilate d w h) (y * w + x) c = chan d (y * w + x) c := by
      intro c hc
      rw [dilate_chan d w h x y c hxw hc (hidx c hc), if_neg (by omega)]
    rcases hbw (y * w + x) hp with hb | hb
    · left
      exact ⟨by rw [hchan 0 (by omega)]; exact hb.1, by rw [hchan 1 (by omega)]; exact hb.2.1,
        by rw [hchan 2 (by omega)]; exact hb.2.2.1, by rw [hchan 3 (by omega)]; exact hb.2.2.2⟩
    · right
      exact ⟨by rw [hchan 0 (by omega)]; exact hb.1, by rw [hchan 1 (by omega)]; exact hb.2.1,
        by rw [hchan 2 (by omega)]; exact hb.2.2.1, by rw [hchan 3 (by omega)]; exact hb.2.2.2⟩

/-- Iterated dilation preserves the invariant and the buffer length. -/
theorem dilateIter_pureBW (d : List ℕ) (w h n : ℕ) (hd : d.length = w * h * 4)
    (hbw : pureBW d w h) :
    pureBW (dilateIter d w h n) w h ∧ (dilateIter d w h n).length = w * h * 4 := by
  induction n with
  | zero => exact ⟨hbw, hd⟩
  | succ n ih =>
    refine ⟨dilate_pureBW _ w h ih.2 ih.1, ?_⟩
    show (dilate (dilateIter d w h n) w h).length = w * h * 4
    rw [dilate_length]
    exact ih.2

/-- C8. Pure black/white invariant: every pixel of the binarizer output is
pure opaque black or pure opaque white; each dilation pass preserves this;
hence the pipeline output after any number of dilation passes contains
only these two pixel values. -/
theorem pureBW_invariant (mag : List ℚ) (w h t n : ℕ)
    (hlen : mag.length = w * h) :
    pureBW (thresholdEdges mag w h t) w h ∧
    (∀ d, d.length = w * h * 4 → pureBW d w h → pureBW (dilate d w h) w h) ∧
    pureBW (dilateIter (thresholdEdges mag w h t) w h n) w h := by
  refine ⟨thresholdEdges_pureBW mag w h t hlen,
    fun d hd hbw => dilate_pureBW d w h hd hbw, ?_⟩
  exact (dilateIter_pureBW _ w h n (thresholdEdges_length mag w h t)
    (thresholdEdges_pureBW mag w h t hlen)).1

/-- Witness for C8: the binarized map 0, 1 at threshold 50 stays pure
black/white after one dilation pass. -/
theorem pureBW_invariant_witness :
    pureBW (dilateIter (thresholdEdges [(0 : ℚ), 1] 2 1 50) 2 1 1) 2 1 :=
  (pureBW_invariant [(0 : ℚ), 1] 2 1 50 1 rfl).2.2

/-- Alerts the convert handler can raise: the non-fatal fallback notice
and the failure notice. -/
inductive ConvertNotice where
  | fallback : ConvertNotice
  | failure : ConvertNotice
deriving DecidableEq

/-- handleConvert from the page component (src/unnamed/part_003 lines
250-285), with the two conversion attempts abstracted as error-or-result
values: the remote path is taken when quality mode is hq and the API
health check succeeded, else the local pipeline runs; if the first attempt
throws, the catch block retries the local pipeline when in hq mode,
setting the result with a non-fatal fallback alert on success; when the
retry (or a non-hq attempt) fails, a failure alert is raised and the
displayed line art is not reassigned. Returns the displayed line art after
the handler together with the alert raised, if any. -/
def handleConvert {D : Type} (hq apiAvailable : Bool)
    (remote loc : Except Unit D) (prev : D) : D × Option ConvertNotice :=
  match (if hq && apiAvailable then remote else loc) with
  | Except.ok d => (d, none)
  | Except.error _ =>
    if hq then
      match loc with
      | Except.ok d => (d, some ConvertNotice.fallback)
      | Except.error _ => (prev, some ConvertNotice.failure)
    else (prev, some ConvertNotice.failure)

/-- C9. Fallback and atomicity of the conversion entry point: with the
remote path selected (hq mode, API available), a remote failure falls back
to the local pipeline, still producing a result with a non-fatal notice;
when the local pipeline also fails the handler reports failure and the
previously displayed line art is unchanged; and whenever a failure is
reported, the displayed line art equals the prior state and the local
pipeline indeed failed. -/
theorem handleConvert_fallback {D : Type} (remote loc : Except Unit D)
    (prev d0 : D) :
    (remote = Except.error () → loc = Except.ok d0 →
      handleConvert true true remote loc prev = (d0, some ConvertNotice.fallback)) ∧
    (remote = Except.error () → loc = Except.error () →
      handleConvert true true remote loc prev = (prev, some ConvertNotice.failure)) ∧
    (∀ hq apiAvailable : Bool,
      (handleConvert hq apiAvailable remote loc prev).2 = some ConvertNotice.failure →
      (handleConvert hq apiAvailable remote loc prev).1 = prev ∧
        loc = Except.error ()) := by
  refine ⟨?_, ?_, ?_⟩
  · intro hrem hloc
    subst hrem; subst hloc
    rfl
  · intro hrem hloc
    subst hrem; subst hloc
    rfl
  · intro hq apiAvailable hfail
    cases hq <;> cases apiAvailable <;>
      rcases remote with e | dr <;> rcases loc with e2 | dl <;>
      (try cases e) <;> (try cases e2) <;>
      simp_all [handleConvert]

/-- Witness for C9: a failed remote call with a succeeding local pipeline
yields the local result and the non-fatal fallback notice. -/
theorem handleConvert_fallback_witness :
    handleConvert true true (Except.error () : Except Unit ℕ) (Except.ok 7) 3 =
      (7, some ConvertNotice.fallback) :=
  (handleConvert_fallback (Except.error ()) (Except.ok 7) 3 7).1 rfl rfl

/-- The flattened horizontal Sobel kernel, src/lib/lineArt.ts line 89. -/
def sobelX : List ℤ := [-1, 0, 1, -2, 0, 2, -1, 0, 1]

/-- The flattened vertical Sobel kernel, src/lib/lineArt.ts line 90. -/
def sobelY : List ℤ := [-1, -2, -1, 0, 0, 0, 1, 2, 1]

/-- One directional gradient of sobelEdge (src/lib/lineArt.ts lines
94-105): the flat loop index k runs 0..8 over dy = k / 3 - 1 and
dx = k % 3 - 1, accumulating red-channel sample times kernel entry. -/
def sobelG (ker : List ℤ) (d : List ℕ) (w x y : ℕ) : ℤ :=
  ((List.range 9).map fun k =>
    (d.getD (((y + k / 3 - 1) * w + (x + k % 3 - 1)) * 4) 0 : ℤ) *
      ker.getD k 0).sum

/-- sobelEdge, src/lib/lineArt.ts lines 84-112: the magnitude map is a
zero-initialized Float32Array of w*h entries; each interior entry receives
the square root of gx squared plus gy squared; border entries are never
written and stay 0. -/
noncomputable def sobelEdge (d : List ℕ) (w h i : ℕ) : ℝ :=
  if 1 ≤ i % w ∧ i % w + 1 < w ∧ 1 ≤ i / w ∧ i / w + 1 < h then
    Real.sqrt (((sobelG sobelX d w (i % w) (i / w) : ℤ) : ℝ) ^ 2 +
      ((sobelG sobelY d w (i % w) (i / w) : ℤ) : ℝ) ^ 2)
  else 0

/-- The horizontal derivative kernel as the spec states it, as 2D rows. -/
def kernelX : List (List ℤ) := [[-1, 0, 1], [-2, 0, 2], [-1, 0, 1]]

/-- The vertical derivative kernel as the spec states it, as 2D rows. -/
def kernelY : List (List ℤ) := [[-1, -2, -1], [0, 0, 0], [1, 2, 1]]

/-- Modelled from the spec wording: 2D convolution of the red channel with
a 3 by 3 kernel centred at (x, y), rows and columns indexed 0..2. -/
def convol (ker : List (List ℤ)) (d : List ℕ) (w x y : ℕ) : ℤ :=
  ((List.range 3).map fun r =>
    ((List.range 3).map fun c =>
      (ker.getD r []).getD c 0 *
        (d.getD (((y + r - 1) * w + (x + c - 1)) * 4) 0 : ℤ)).sum).sum

/-- The flat-index gradient with the flattened horizontal kernel equals
the 2D convolution with the spec kernel. -/
theorem sobelG_X_eq_convol (d : List ℕ) (w x y : ℕ) :
    sobelG sobelX d w x y = convol kernelX d w x y := by
  simp only [sobelG, convol, sobelX, kernelX, List.range_succ, List.range_zero,
    List.map_append, List.map_cons, List.map_nil, List.sum_append, List.sum_cons,
    List.sum_nil]
  norm_num
  ring

/-- The flat-index gradient with the flattened vertical kernel equals the
2D convolution with the spec kernel. -/
theorem sobelG_Y_eq_convol (d : List ℕ) (w x y : ℕ) :
    sobelG sobelY d w x y = convol kernelY d w x y := by
  simp only [sobelG, convol, sobelY, kernelY, List.range_succ, List.range_zero,
    List.map_append, List.map_cons, List.map_nil, List.sum_append, List.sum_cons,
    List.sum_nil]
  norm_num
  ring

/-- C5. Edge-detector contract: on a buffer of width and height at least
3, every interior entry of the magnitude map is the square root of gx
squared plus gy squared, where gx and gy are the red channel convolved
with the fixed 3 by 3 horizontal and vertical derivative kernels; every
border entry of the map is exactly 0. -/
theorem sobelEdge_contract (d : List ℕ) (w h x y : ℕ) (hw : 3 ≤ w) (hh : 3 ≤ h)
    (hx1 : 1 ≤ x) (hx2 : x + 1 < w) (hy1 : 1 ≤ y) (hy2 : y + 1 < h) :
    sobelEdge d w h (y * w + x) =
      Real.sqrt (((convol kernelX d w x y : ℤ) : ℝ) ^ 2 +
        ((convol kernelY d w x y : ℤ) : ℝ) ^ 2) ∧
    (∀ i < w * h, (i % w = 0 ∨ i % w + 1 = w ∨ i / w = 0 ∨ i / w + 1 = h) →
      sobelEdge d w h i = 0) := by
  constructor
  · have hxw : x < w := by omega
    obtain ⟨hdw, hmw, -, -⟩ := pix_decomp w x y 0 hxw (by omega)
    unfold sobelEdge
    rw [hmw, hdw, if_pos ⟨hx1, hx2, hy1, hy2⟩,
      sobelG_X_eq_convol, sobelG_Y_eq_convol]
  · intro i hi hb
    unfold sobelEdge
    rw [if_neg (by omega)]

/-- Witness for C5 on a concrete 3 by 3 buffer: the center magnitude
equals the square root of the squared 2D-kernel convolutions. -/
theorem sobelEdge_contract_witness :
    sobelEdge (List.replicate 36 5) 3 3 (1 * 3 + 1) =
      Real.sqrt (((convol kernelX (List.replicate 36 5) 3 1 1 : ℤ) : ℝ) ^ 2 +
        ((convol kernelY (List.replicate 36 5) 3 1 1 : ℤ) : ℝ) ^ 2) :=
  (sobelEdge_contract (List.replicate 36 5) 3 3 1 1 (by decide) (by decide)
    (by decide) (by decide) (by decide) (by decide)).1
